import Mathlib

/-!
Shallow embedding of `git_cherry_picker.py` (repository `cherry-picker`).

Strings from the Python side are modelled as `List Char`; machine text
operations (`str.split`, `str.split()` with no argument, `int(...)`,
`re.search` for the three concrete patterns used by the tool) are
translated to executable Lean functions below.  Only ASCII digits and
whitespace are modelled, which is what the tool's inputs use.
-/

namespace CherryPick

/-- Python `s.split(sep, maxsplit)` on a character separator: at most
`maxsplit` cuts, each at the leftmost remaining occurrence of `sep`. -/
def splitLimit (sep : Char) : Nat → List Char → List (List Char)
  | 0, cs => [cs]
  | n + 1, cs =>
    if cs.contains sep then
      cs.takeWhile (· ≠ sep) ::
        splitLimit sep n ((cs.dropWhile (· ≠ sep)).tail)
    else [cs]

/-- Python `s.split(sep)` with no limit; the number of cuts is bounded by
the length of the string, so a fuel of `cs.length` is exact. -/
def splitAll (sep : Char) (cs : List Char) : List (List Char) :=
  splitLimit sep cs.length cs

/-- Python whitespace for `str.split()` / `str.strip()` (ASCII fragment). -/
def isPySpace (c : Char) : Bool :=
  c = ' ' || c = '\t' || c = '\n' || c = '\r' || c = '\x0b' || c = '\x0c'

/-- Python `s.split()` with no argument: split on whitespace runs,
dropping empty fields. -/
def pyWords (cs : List Char) : List (List Char) :=
  (cs.splitOnP isPySpace).filter (· ≠ [])

/-- Decimal digits with single underscores allowed between digits, the
tail grammar of a Python `int` literal string after its first digit;
`prevU` records whether the previous character was an underscore. -/
def digitsRest (prevU : Bool) : List Char → Bool
  | [] => !prevU
  | c :: cs =>
    if c = '_' then !prevU && digitsRest true cs
    else c.isDigit && digitsRest false cs

/-- A nonempty digit string in the body grammar accepted by `int(...)`. -/
def digitsOK : List Char → Bool
  | [] => false
  | c :: cs => c.isDigit && digitsRest false cs

/-- Numeric value of a digit string (underscores skipped). -/
def digitsVal (cs : List Char) : Nat :=
  (cs.filter (· ≠ '_')).foldl (fun n c => n * 10 + (c.toNat - 48)) 0

/-- Python `int(s)` after whitespace stripping: optional sign, then digits. -/
def pyIntCore : List Char → Option Int
  | '+' :: rest => if digitsOK rest then some (digitsVal rest) else none
  | '-' :: rest => if digitsOK rest then some (-(digitsVal rest : Int)) else none
  | cs => if digitsOK cs then some (digitsVal cs) else none

/-- Python `int(s)` on a string: strip surrounding whitespace, parse the
body, `none` models the `ValueError`. -/
def pyInt (cs : List Char) : Option Int :=
  pyIntCore (((cs.dropWhile isPySpace).reverse.dropWhile isPySpace).reverse)

/-- ASCII uppercase letter, the `[A-Z]` class. -/
def isUpperAZ (c : Char) : Bool := 'A' ≤ c && c ≤ 'Z'

/-- Attempt of the regex `([A-Z]+-\d+)` anchored at the head of `cs`.
`[A-Z]+` is greedy; backtracking cannot help because a shorter letter run
is followed by another letter, never by `-`, so maximal munch is exact. -/
def matchTagAt (cs : List Char) : Option (List Char) :=
  let ups := cs.takeWhile isUpperAZ
  if ups = [] then none
  else
    match cs.drop ups.length with
    | '-' :: r2 =>
      let ds := r2.takeWhile Char.isDigit
      if ds = [] then none else some (ups ++ '-' :: ds)
    | _ => none

/-- `re.search` for `([A-Z]+-\d+)`: leftmost match wins. -/
def searchTag : List Char → Option (List Char)
  | [] => none
  | c :: cs =>
    match matchTagAt (c :: cs) with
    | some r => some r
    | none => searchTag cs

/-- The zero-width assertion `$` of Python `re` (no MULTILINE): end of the
string, or just before a trailing newline. -/
def dollarAt (s : List Char) (i : Nat) : Bool :=
  i = s.length || (i + 1 = s.length && s.getD i ' ' = '\n')

/-- Attempt of the second source pattern, literally `$$([A-Z]+-\d+)$$`,
at position `i`: two `$` assertions, the tag group, two `$` assertions. -/
def matchDollarTagAt (s : List Char) (i : Nat) : Option (List Char) :=
  if dollarAt s i && dollarAt s i then
    match matchTagAt (s.drop i) with
    | some r =>
      if dollarAt s (i + r.length) && dollarAt s (i + r.length) then some r
      else none
    | none => none
  else none

/-- `re.search` for the source's second pattern `$$([A-Z]+-\d+)$$`:
try every start position left to right. -/
def searchDollarTag (s : List Char) : Option (List Char) :=
  (List.range (s.length + 1)).findSome? (fun i => matchDollarTagAt s i)

/-- Attempt of the regex `#(\d+)` anchored at the head of `cs`. -/
def matchHashAt : List Char → Option (List Char)
  | '#' :: rest =>
    let ds := rest.takeWhile Char.isDigit
    if ds = [] then none else some ds
  | _ => none

/-- `re.search` for `#(\d+)`: leftmost match wins. -/
def searchHash : List Char → Option (List Char)
  | [] => none
  | c :: cs =>
    match matchHashAt (c :: cs) with
    | some r => some r
    | none => searchHash cs

/-- `GitClient._extract_task_id`: the three patterns are tried in the
order they appear in the source list: bare tag, `$$`-wrapped tag, hash
number; the first match's capture group is returned. -/
def extract_task_id (subject : List Char) : Option (List Char) :=
  match searchTag subject with
  | some r => some r
  | none =>
    match searchDollarTag subject with
    | some r => some r
    | none => searchHash subject

/-- The dataclass `GitCommit` (fields as in the source). -/
structure GitCommit where
  hash : List Char
  subject : List Char
  author : List Char
  date : List Char
  timestamp : Int
  task_id : List Char
deriving Repr, DecidableEq

/-- One iteration of the parsing loop of `GitClient._parse_commits` on a
single raw line: empty lines and lines with fewer than 6 fields are
skipped; the task id is re-derived from the subject and checked against
the requested set; multi-parent lines are skipped; a timestamp that
`int(...)` rejects aborts the line (the `except` branch). -/
def parseLine (tasks : List (List Char)) (line : List Char) : Option GitCommit :=
  if line = [] then none
  else
    match splitLimit '|' 5 line with
    | [h, subject, author, date, parents, ts] =>
      match extract_task_id subject with
      | none => none
      | some tid =>
        if tid = [] || !tasks.contains tid then none
        else if (pyWords parents).length > 1 then none
        else
          match pyInt ts with
          | none => none
          | some t => some ⟨h, subject, author, date, t, tid⟩
    | _ => none

/-- Insertion step of a stable sort by `timestamp`: the new element goes
before every element whose key is not strictly smaller, so an element
inserted later (i.e. occurring earlier in the input) precedes equal keys. -/
def insertByTS (c : GitCommit) : List GitCommit → List GitCommit
  | [] => [c]
  | d :: ds => if d.timestamp < c.timestamp then d :: insertByTS c ds else c :: d :: ds

/-- The final sorting step of `_parse_commits`:
`commits.sort(key=lambda c: c.timestamp)`.  Python's `list.sort` is a
stable sort keyed here by `timestamp`; a stable sort's output is uniquely
determined by the input, and is computed by this stable insertion sort. -/
def orderCommits : List GitCommit → List GitCommit
  | [] => []
  | c :: cs => insertByTS c (orderCommits cs)

/-- `GitClient._parse_commits`: split the raw log output into lines,
parse and filter each, then sort by timestamp only. -/
def parse_commits (output : List Char) (tasks : List (List Char)) : List GitCommit :=
  orderCommits ((splitAll '\n' output).filterMap (parseLine tasks))

/-! The Replay Engine (`CherryPicker`).  External effects are made
explicit: the repository state is the current branch plus a log of the
checkouts performed; operator input is a list of stdin lines (Python's
`input()` raises `EOFError` when it is exhausted); the outcomes of the
fallible git commands `cherry-pick` and `cherry-pick --continue` are
oracles indexed by how many attempts have been made.  Every function
returns its result together with the state, so state survives the
exceptional paths and the `finally` block can be modelled faithfully. -/

/-- Outcome bookkeeping of `_apply_commits`: the local variables
`successful`, `skipped`, `failed`. -/
structure Summary where
  successful : Nat
  skipped : Nat
  failed : Nat
deriving Repr, DecidableEq

/-- Exceptions that can escape the modelled fragment: `EOFError` from
`input()` when stdin is exhausted. -/
inductive Exn
  | eof
deriving Repr, DecidableEq

/-- Mutable state threaded through the engine. -/
structure S where
  branch : String
  checkouts : List String
  stdin : List String
  nPick : Nat
  nCont : Nat
deriving Repr, DecidableEq

/-- Oracles for the external collaborators. -/
structure Env where
  pickOk : Nat → Bool
  contOk : Nat → Bool
  revParse : String
  logOutput : List Char

/-- `GitClient.checkout`: switches the current branch (recorded). -/
def checkout (b : String) (s : S) : S :=
  { s with branch := b, checkouts := s.checkouts ++ [b] }

/-- Python `str.lower()` (ASCII fragment, which covers the single-letter
menu answers the tool compares against). -/
def pyLower (s : String) : String :=
  ⟨s.data.map Char.toLower⟩

/-- Python `input()`: consume one stdin line or raise `EOFError`. -/
def readLine (s : S) : Except Exn String × S :=
  match s.stdin with
  | [] => (.error .eof, s)
  | l :: rest => (.ok l, { s with stdin := rest })

/-- `GitClient.cherry_pick`: one attempt, outcome from the oracle;
a failure is the raised `CalledProcessError` (caught by the caller). -/
def cherryPickAttempt (env : Env) (s : S) : Bool × S :=
  (env.pickOk s.nPick, { s with nPick := s.nPick + 1 })

/-- The `git cherry-pick --continue --no-edit` attempt inside
`_continue_or_skip`, outcome from the oracle. -/
def continueAttempt (env : Env) (s : S) : Bool × S :=
  (env.contOk s.nCont, { s with nCont := s.nCont + 1 })

/-- `CherryPicker._continue_or_skip`: try continue; on failure ask the
operator whether to skip; declining returns `("continue", False)` so the
caller loops back to the menu.  Never aborts. -/
def continue_or_skip (env : Env) (s : S) : Except Exn (String × Bool) × S :=
  let (ok, s₁) := continueAttempt env s
  if ok then (.ok ("continue", true), s₁)
  else
    match readLine s₁ with
    | (.error e, s₂) => (.error e, s₂)
    | (.ok line, s₂) =>
      if pyLower line = "y" then (.ok ("skip", true), s₂)
      else (.ok ("continue", false), s₂)

/-- `CherryPicker._handle_conflict`: the action menu loop.  `d`, `l` and
unrecognized answers redisplay the menu; `c`, `u`, `t`, `m` run their
resolution step (no modelled repository effect) and then
`_continue_or_skip`; `s` skips, `a` aborts.  Comparison is against the
lower-cased full input line, as in the source. -/
def handleConflictGo (env : Env) : List String → S → Except Exn (String × Bool) × S
  | [], s => (.error .eof, s)
  | choice :: rest, s =>
    if pyLower choice = "d" then handleConflictGo env rest { s with stdin := rest }
    else if pyLower choice = "l" then handleConflictGo env rest { s with stdin := rest }
    else if pyLower choice = "c" then continue_or_skip env { s with stdin := rest }
    else if pyLower choice = "u" then continue_or_skip env { s with stdin := rest }
    else if pyLower choice = "t" then continue_or_skip env { s with stdin := rest }
    else if pyLower choice = "m" then continue_or_skip env { s with stdin := rest }
    else if pyLower choice = "s" then (.ok ("skip", true), { s with stdin := rest })
    else if pyLower choice = "a" then (.ok ("abort", false), { s with stdin := rest })
    else handleConflictGo env rest { s with stdin := rest }

/-- `CherryPicker._handle_conflict` proper: the loop walks the operator's
stdin, so the recursion of `handleConflictGo` is on that list. -/
def handle_conflict (env : Env) (s : S) : Except Exn (String × Bool) × S :=
  handleConflictGo env s.stdin s

/-- The one stdin line `_continue_or_skip` may consume keeps the stdin
length nonincreasing. -/
theorem continue_or_skip_stdin_le (env : Env) (s : S) (r : Except Exn (String × Bool))
    (s' : S) (hr : continue_or_skip env s = (r, s')) :
    s'.stdin.length ≤ s.stdin.length := by
  cases hl : s.stdin with
  | nil =>
    simp only [continue_or_skip, continueAttempt, readLine, hl] at hr
    split at hr <;>
      (rw [Prod.ext_iff] at hr
       obtain ⟨h1, h2⟩ := hr
       subst h2
       simp [hl])
  | cons l rest =>
    simp only [continue_or_skip, continueAttempt, readLine, hl] at hr
    split at hr
    · rw [Prod.ext_iff] at hr
      obtain ⟨h1, h2⟩ := hr
      subst h2
      simp [hl]
    · split at hr <;>
        (rw [Prod.ext_iff] at hr
         obtain ⟨h1, h2⟩ := hr
         subst h2
         simp [hl])

/-- A terminated menu session consumed at least one stdin line:
`_handle_conflict` begins with an `input()`. -/
theorem handleConflictGo_stdin_lt (env : Env) :
    ∀ stdin (s : S) r s', handleConflictGo env stdin s = (.ok r, s') →
      s'.stdin.length < stdin.length := by
  intro stdin
  induction stdin with
  | nil =>
    intro s r s' hr
    simp [handleConflictGo] at hr
  | cons choice rest ih =>
    intro s r s' hr
    rw [handleConflictGo] at hr
    have hrest : rest.length < (choice :: rest).length := by simp
    split at hr
    · exact lt_trans (ih _ r s' hr) hrest
    · split at hr
      · exact lt_trans (ih _ r s' hr) hrest
      · split at hr
        · exact lt_of_le_of_lt (by simpa using continue_or_skip_stdin_le env _ _ _ hr) hrest
        · split at hr
          · exact lt_of_le_of_lt (by simpa using continue_or_skip_stdin_le env _ _ _ hr) hrest
          · split at hr
            · exact lt_of_le_of_lt (by simpa using continue_or_skip_stdin_le env _ _ _ hr) hrest
            · split at hr
              · exact lt_of_le_of_lt (by simpa using continue_or_skip_stdin_le env _ _ _ hr) hrest
              · split at hr
                · rw [Prod.ext_iff] at hr
                  obtain ⟨h1, h2⟩ := hr
                  subst h2
                  simpa using hrest
                · split at hr
                  · rw [Prod.ext_iff] at hr
                    obtain ⟨h1, h2⟩ := hr
                    subst h2
                    simpa using hrest
                  · exact lt_trans (ih _ r s' hr) hrest

/-- Restatement of the consumption bound for `handle_conflict`. -/
theorem handle_conflict_stdin_lt (env : Env) (s : S) (r : String × Bool) (s' : S)
    (hr : handle_conflict env s = (.ok r, s')) :
    s'.stdin.length < s.stdin.length :=
  handleConflictGo_stdin_lt env s.stdin s r s' hr

/-- Resolution of the inner `while True` loop of `_apply_commits` for one
blocked commit. -/
inductive LoopRes
  | aborted
  | skippedOne
  | applied
deriving Repr, DecidableEq

/-- The inner `while True` loop of `_apply_commits`: call
`_handle_conflict` until it yields `abort`, `skip`, or a successful
`continue`; an unsuccessful `continue` re-enters the loop.  Every
iteration consumes stdin, so fuel `s.stdin.length + 1` can never run
out (`conflictLoopFuel_irrel` below); the fuel-zero branch mirrors the
`EOFError` that an exhausted stdin would raise anyway. -/
def conflictLoopFuel (env : Env) : Nat → S → Except Exn LoopRes × S
  | 0, s => (.error .eof, s)
  | fuel + 1, s =>
    match handle_conflict env s with
    | (.error e, s₁) => (.error e, s₁)
    | (.ok (action, success), s₁) =>
      if action = "abort" then (.ok .aborted, s₁)
      else if action = "skip" then (.ok .skippedOne, s₁)
      else if success then (.ok .applied, s₁)
      else conflictLoopFuel env fuel s₁

/-- The inner loop with its always-sufficient fuel. -/
def conflictLoop (env : Env) (s : S) : Except Exn LoopRes × S :=
  conflictLoopFuel env (s.stdin.length + 1) s

/-- Any fuel beyond the stdin length computes the same result, so
`conflictLoop` is the loop's unique fixed point. -/
theorem conflictLoopFuel_irrel (env : Env) :
    ∀ fuel (s : S), s.stdin.length < fuel →
      conflictLoopFuel env fuel s = conflictLoop env s := by
  intro fuel
  induction fuel using Nat.strong_induction_on with
  | _ fuel ih =>
    intro s hs
    match fuel, hs with
    | fuel + 1, hs =>
      rcases hh : handle_conflict env s with ⟨e | ⟨action, success⟩, s₁⟩
      · rw [conflictLoop]
        simp only [conflictLoopFuel, hh]
      · rw [conflictLoop]
        simp only [conflictLoopFuel, hh]
        have hlt := handle_conflict_stdin_lt env s (action, success) s₁ hh
        split
        · rfl
        · split
          · rfl
          · split
            · rfl
            · rw [ih fuel (by omega) s₁ (by omega),
                ih s.stdin.length (by omega) s₁ (by omega)]

/-- The `for` loop of `_apply_commits` over the remaining commits.
`n` is `len(commits)`, `i` the 1-indexed position of the next commit,
`succ`/`skip` the accumulated counters.  The returned `Bool` records
whether the final summary `print` at the end of the method was reached:
the `abort` branch returns from the method before it, discarding the
just-computed `failed` count. -/
def applyLoop (env : Env) (n : Nat) :
    List GitCommit → Nat → Nat → Nat → S → Except Exn (Summary × Bool) × S
  | [], _, succ, skip, s => (.ok ({ successful := succ, skipped := skip, failed := 0 }, true), s)
  | _ :: rest, i, succ, skip, s =>
    match cherryPickAttempt env s with
    | (true, s₁) => applyLoop env n rest (i + 1) (succ + 1) skip s₁
    | (false, s₁) =>
      match conflictLoop env s₁ with
      | (.error e, s₂) => (.error e, s₂)
      | (.ok .aborted, s₂) =>
        (.ok ({ successful := succ, skipped := skip, failed := n - i + 1 }, false), s₂)
      | (.ok .skippedOne, s₂) => applyLoop env n rest (i + 1) succ (skip + 1) s₂
      | (.ok .applied, s₂) => applyLoop env n rest (i + 1) (succ + 1) skip s₂

/-- `CherryPicker._apply_commits`. -/
def apply_commits (env : Env) (commits : List GitCommit) (s : S) :
    Except Exn (Summary × Bool) × S :=
  applyLoop env commits.length commits 1 0 0 s

/-- `GitClient.get_commits_by_tasks`: empty task set short-circuits;
otherwise the log output (an oracle) is parsed and filtered. -/
def get_commits_by_tasks (env : Env) (tasks : List (List Char)) : List GitCommit :=
  if tasks = [] then [] else parse_commits env.logOutput tasks

/-- The possible exits of `CherryPicker.run`. -/
inductive RunExit
  | sourceMissing
  | noCommits
  | dryRunShown
  | cancelled
  | finished (summary : Summary) (printed : Bool)
deriving Repr, DecidableEq

/-- `CherryPicker.run`: verify the source ref, discover commits, bail out
on an empty list or dry run, ask for confirmation, then save the current
branch, check out the target if it differs, apply, and in the `finally`
block check the original branch back out when it is nonempty and differs
from the branch current at that moment. -/
def CherryPicker.run (env : Env) (target : String) (tasks : List (List Char))
    (dryRun : Bool) (s : S) : Except Exn RunExit × S :=
  if env.revParse = "" then (.ok .sourceMissing, s)
  else
    let commits := get_commits_by_tasks env tasks
    if commits.isEmpty then (.ok .noCommits, s)
    else if dryRun then (.ok .dryRunShown, s)
    else
      match readLine s with
      | (.error e, s₁) => (.error e, s₁)
      | (.ok confirm, s₁) =>
        if pyLower confirm ≠ "y" then (.ok .cancelled, s₁)
        else
          let original := s₁.branch
          let s₂ := if target ≠ original then checkout target s₁ else s₁
          let (r, s₃) := apply_commits env commits s₂
          let s₄ := if original ≠ "" ∧ original ≠ s₃.branch then checkout original s₃ else s₃
          match r with
          | .error e => (.error e, s₄)
          | .ok (sum, printed) => (.ok (.finished sum printed), s₄)

end CherryPick

namespace CherryPick

example : extract_task_id "fix ECOLOGY-2994 done".data = some "ECOLOGY-2994".data := by decide
example : extract_task_id "nothing here".data = none := by decide
example : extract_task_id "#123 gh".data = some "123".data := by decide
example : extract_task_id "ECO-2 [ABC-1]".data = some "ECO-2".data := by decide
example : pyInt " 123 ".data = some 123 := by decide
example : pyInt "1_0".data = some 10 := by decide
example : pyInt "1_".data = none := by decide
example : pyInt "12|3".data = none := by decide
example : splitLimit '|' 5 "a|b|c|d|e|f|g".data =
    ["a".data, "b".data, "c".data, "d".data, "e".data, "f|g".data] := by decide
example : pyWords "".data = [] := by decide
example : pyWords " a  bb ".data = ["a".data, "bb".data] := by decide
example :
    parse_commits "h1|ABC-1 x|me|d|p|5\nh2|ABC-2 y|me|d|p|3".data
      ["ABC-1".data, "ABC-2".data] =
    [⟨"h2".data, "ABC-2 y".data, "me".data, "d".data, 3, "ABC-2".data⟩,
     ⟨"h1".data, "ABC-1 x".data, "me".data, "d".data, 5, "ABC-1".data⟩] := by decide

/-! Supporting lemmas about the Chronological Orderer. -/

theorem mem_insertByTS {x c : GitCommit} :
    ∀ {L : List GitCommit}, x ∈ insertByTS c L ↔ x = c ∨ x ∈ L := by
  intro L
  induction L with
  | nil => simp [insertByTS]
  | cons d ds ih =>
    rw [insertByTS]
    split
    · simp only [List.mem_cons, ih]
      tauto
    · simp only [List.mem_cons]

theorem insertByTS_perm (c : GitCommit) :
    ∀ L : List GitCommit, List.Perm (insertByTS c L) (c :: L) := by
  intro L
  induction L with
  | nil => simp [insertByTS]
  | cons d ds ih =>
    rw [insertByTS]
    split
    · exact (ih.cons d).trans (List.Perm.swap c d ds)
    · rfl

theorem orderCommits_perm : ∀ L : List GitCommit, List.Perm (orderCommits L) L := by
  intro L
  induction L with
  | nil => rfl
  | cons c cs ih => exact (insertByTS_perm c (orderCommits cs)).trans (ih.cons c)

theorem insertByTS_pairwise (c : GitCommit) :
    ∀ L : List GitCommit, L.Pairwise (fun a b => a.timestamp ≤ b.timestamp) →
      (insertByTS c L).Pairwise (fun a b => a.timestamp ≤ b.timestamp) := by
  intro L
  induction L with
  | nil => intro _; simp [insertByTS]
  | cons d ds ih =>
    intro h
    rw [List.pairwise_cons] at h
    obtain ⟨hd, hds⟩ := h
    rw [insertByTS]
    split
    · rename_i hlt
      rw [List.pairwise_cons]
      refine ⟨?_, ih hds⟩
      intro x hx
      rcases mem_insertByTS.mp hx with rfl | hx
      · omega
      · exact hd x hx
    · rename_i hge
      rw [List.pairwise_cons]
      constructor
      · intro x hx
        rcases List.mem_cons.mp hx with rfl | hx
        · omega
        · have := hd x hx
          omega
      · rw [List.pairwise_cons]
        exact ⟨hd, hds⟩

theorem orderCommits_pairwise (L : List GitCommit) :
    (orderCommits L).Pairwise (fun a b => a.timestamp ≤ b.timestamp) := by
  induction L with
  | nil => simp [orderCommits]
  | cons c cs ih => exact insertByTS_pairwise c _ ih

theorem filter_insertByTS (c : GitCommit) (t : Int) :
    ∀ L : List GitCommit,
      (insertByTS c L).filter (fun d => decide (d.timestamp = t)) =
        if c.timestamp = t then c :: L.filter (fun d => decide (d.timestamp = t))
        else L.filter (fun d => decide (d.timestamp = t)) := by
  intro L
  induction L with
  | nil =>
    rw [insertByTS]
    split <;> simp_all [List.filter_cons]
  | cons d ds ih =>
    rw [insertByTS]
    split
    · rename_i hlt
      by_cases hct : c.timestamp = t
      · have hdt : ¬ d.timestamp = t := by omega
        simp [List.filter_cons, hdt, hct, ih]
      · simp [List.filter_cons, ih, hct]
    · rename_i hge
      by_cases hct : c.timestamp = t <;> simp [List.filter_cons, hct]

theorem filter_orderCommits (t : Int) :
    ∀ L : List GitCommit,
      (orderCommits L).filter (fun d => decide (d.timestamp = t)) =
        L.filter (fun d => decide (d.timestamp = t)) := by
  intro L
  induction L with
  | nil => rfl
  | cons c cs ih =>
    rw [orderCommits, filter_insertByTS, List.filter_cons]
    split <;> simp_all

/-- Membership of the requested task set is the only use `parseLine`
makes of `tasks`, so any permutation of the set gives the same records. -/
theorem parseLine_perm {tasks tasks' : List (List Char)} (h : List.Perm tasks tasks')
    (line : List Char) : parseLine tasks line = parseLine tasks' line := by
  unfold parseLine
  have hc : ∀ tid : List Char, tasks.contains tid = tasks'.contains tid := by
    intro tid
    cases h1 : tasks.contains tid <;> cases h2 : tasks'.contains tid <;> try rfl
    · have h1x : List.elem tid tasks = false := h1
      rw [List.elem_iff] at h2
      have h3 := h.mem_iff.mpr h2
      rw [← List.elem_iff, h1x] at h3
      cases h3
    · have h2x : List.elem tid tasks' = false := h2
      rw [List.elem_iff] at h1
      have h3 := h.mem_iff.mp h1
      rw [← List.elem_iff, h2x] at h3
      cases h3
  split
  · rfl
  · split
    · split
      · rfl
      · rw [hc]
    · rfl

theorem parse_commits_perm {tasks tasks' : List (List Char)} (h : List.Perm tasks tasks')
    (output : List Char) : parse_commits output tasks = parse_commits output tasks' := by
  unfold parse_commits
  congr 1
  exact List.filterMap_congr (fun line _ => parseLine_perm h line)

/-! Definitions modelled from the spec's words, for comparison with the
source behaviour (claim C4). -/

/-- Modelled from the spec: attempt of the bracket-delimited rule
`\[([A-Z]+-\d+)\]` anchored at the head: an opening bracket, the tag,
a closing bracket.  Maximal munch is again exact. -/
def matchBracketTagAt : List Char → Option (List Char)
  | '[' :: rest =>
    (match matchTagAt rest with
     | some r =>
       (match rest.drop r.length with
        | ']' :: _ => some r
        | _ => none)
     | none => none)
  | _ => none

/-- Modelled from the spec: leftmost match of the bracket-delimited rule. -/
def searchBracketTag : List Char → Option (List Char)
  | [] => none
  | c :: cs =>
    match matchBracketTagAt (c :: cs) with
    | some r => some r
    | none => searchBracketTag cs

/-- Modelled from the spec: the extraction order claim C4 states —
(1) bracket-delimited tag, (2) bare tag, (3) hash-prefixed number,
first match wins. -/
def extractSpecOrder (subject : List Char) : Option (List Char) :=
  match searchBracketTag subject with
  | some r => some r
  | none =>
    match searchTag subject with
    | some r => some r
    | none => searchHash subject

/-- A tag attempt needs at least three characters (letter, hyphen,
digit), so it fails on a singleton. -/
theorem matchTagAt_singleton (c : Char) : matchTagAt [c] = none := by
  unfold matchTagAt
  cases h : isUpperAZ c <;> simp [List.takeWhile, h]

/-- The `$$`-anchored pattern of the source can match no subject at all:
after `$` holds, no `[A-Z]` character can follow. -/
theorem searchDollarTag_eq_none (s : List Char) : searchDollarTag s = none := by
  unfold searchDollarTag
  rw [List.findSome?_eq_none_iff]
  intro i _
  unfold matchDollarTagAt
  split
  · rename_i hd
    have hd' : dollarAt s i = true := by
      cases h : dollarAt s i
      · rw [h] at hd; simp at hd
      · rfl
    unfold dollarAt at hd'
    rcases Bool.or_eq_true_iff.mp hd' with hlen | hlast
    · have : s.drop i = [] := by
        apply List.drop_eq_nil_of_le
        simp at hlen
        omega
      rw [this]
      simp [matchTagAt, List.takeWhile]
    · have hlen1 : (s.drop i).length = 1 := by
        rw [List.length_drop]
        have := Bool.and_eq_true_iff.mp hlast
        have h1 : i + 1 = s.length := by
          have := this.1
          simpa using this
        omega
      obtain ⟨c, hc⟩ := List.length_eq_one.mp hlen1
      rw [hc, matchTagAt_singleton]
  · rfl

/-- **C1.**  For every list of change records, the Chronological
Orderer's output is sorted non-decreasing by the `timestamp` (createdAt)
key; records with equal timestamps keep their original relative order
(stability, phrased as preservation of every equal-timestamp fibre); and
the Commit Source output is independent of the order of the task
identifiers in the requested task set. -/
theorem C1_chronological_orderer :
    (∀ records : List GitCommit,
        (orderCommits records).Pairwise (fun a b => a.timestamp ≤ b.timestamp)) ∧
    (∀ (records : List GitCommit) (t : Int),
        (orderCommits records).filter (fun c => decide (c.timestamp = t)) =
          records.filter (fun c => decide (c.timestamp = t))) ∧
    (∀ (output : List Char) (tasks tasks' : List (List Char)),
        List.Perm tasks tasks' →
          parse_commits output tasks = parse_commits output tasks') :=
  ⟨orderCommits_pairwise,
   fun records t => filter_orderCommits t records,
   fun output _ _ h => parse_commits_perm h output⟩

/-- Witness for C1 at concrete inputs: a permuted task set yields the
same ordered output. -/
theorem C1_chronological_orderer_witness :
    parse_commits "h1|AB-1 f|a|d|p|7\nh2|CD-2 g|a|d|p|3".data
        ["AB-1".data, "CD-2".data] =
      parse_commits "h1|AB-1 f|a|d|p|7\nh2|CD-2 g|a|d|p|3".data
        ["CD-2".data, "AB-1".data] :=
  C1_chronological_orderer.2.2 _ _ _ (by decide)

/-- **C4, counterexample.**  The claim says the bracket-delimited rule is
tried before the bare-tag rule.  On a subject holding a bare tag before a
bracketed one, the source extractor returns the bare tag (its first
pattern), not the bracketed tag that the claimed order would produce. -/
theorem C4_counterexample :
    extract_task_id "ECO-2 see [ABC-1]".data = some "ECO-2".data ∧
    extractSpecOrder "ECO-2 see [ABC-1]".data = some "ABC-1".data ∧
    ("ECO-2".data : List Char) ≠ "ABC-1".data := by
  refine ⟨by decide, by decide, by decide⟩

/-- **C4, amended.**  The source tries, in this fixed order: (1) the bare
uppercase-letters-hyphen-digits tag, (2) a `$$`-anchored bracket pattern
that cannot match any subject, (3) the numeric-hash-prefixed issue
number; it returns the first match's captured identifier and `none` when
no rule matches. -/
theorem C4_extractor_amended :
    ∀ subject : List Char,
      searchDollarTag subject = none ∧
      extract_task_id subject =
        (match searchTag subject with
         | some r => some r
         | none => searchHash subject) ∧
      (extract_task_id subject = none ↔
        searchTag subject = none ∧ searchHash subject = none) := by
  intro subject
  refine ⟨searchDollarTag_eq_none subject, ?_, ?_⟩
  · unfold extract_task_id
    rw [searchDollarTag_eq_none]
  · unfold extract_task_id
    rw [searchDollarTag_eq_none]
    cases searchTag subject <;> cases searchHash subject <;> simp

/-- Anatomy of a successfully parsed line: the record's task id is
re-derived from its subject and belongs to the requested set, and the
line's parents field has at most one whitespace-separated token. -/
theorem parseLine_some (tasks : List (List Char)) (line : List Char) (c : GitCommit)
    (h : parseLine tasks line = some c) :
    extract_task_id c.subject = some c.task_id ∧
    c.task_id ≠ [] ∧
    tasks.contains c.task_id = true ∧
    ∃ h0 a d p ts, splitLimit '|' 5 line = [h0, c.subject, a, d, p, ts] ∧
      (pyWords p).length ≤ 1 := by
  unfold parseLine at h
  split at h
  · cases h
  · split at h
    · rename_i h0 subject author date parents ts hsplit
      split at h
      · cases h
      · rename_i tid hex
        split at h
        · cases h
        · rename_i hok
          split at h
          · cases h
          · rename_i hpar
            split at h
            · cases h
            · rename_i t hts
              rw [Option.some_inj] at h
              subst h
              simp only [Bool.or_eq_true, decide_eq_true_eq, Bool.not_eq_true',
                not_or, Bool.not_eq_false] at hok
              obtain ⟨hne, hcont⟩ := hok
              exact ⟨hex, hne, hcont, h0, author, date, parents, ts, hsplit, by omega⟩
    · cases h

/-- **C6, amended.**  Every record in Commit Source output has a task
identifier re-derived from its subject by the Task Extractor that is a
member of the requested task set, and comes from a raw line whose parents
field has at most one parent (multi-parent merge records are excluded;
a parentless root record also passes, which is what bars the
claim's "exactly one parent"). -/
theorem C6_commit_source_filters (output : List Char) (tasks : List (List Char))
    (c : GitCommit) (hmem : c ∈ parse_commits output tasks) :
    extract_task_id c.subject = some c.task_id ∧
    c.task_id ≠ [] ∧
    tasks.contains c.task_id = true ∧
    ∃ line ∈ splitAll '\n' output, ∃ h0 a d p ts,
      splitLimit '|' 5 line = [h0, c.subject, a, d, p, ts] ∧
      (pyWords p).length ≤ 1 := by
  unfold parse_commits at hmem
  rw [(orderCommits_perm _).mem_iff, List.mem_filterMap] at hmem
  obtain ⟨line, hline, hparse⟩ := hmem
  obtain ⟨h1, h2, h3, h0, a, d, p, ts, hsplit, hpar⟩ := parseLine_some tasks line c hparse
  exact ⟨h1, h2, h3, line, hline, h0, a, d, p, ts, hsplit, hpar⟩

/-- Witness for C6 at a concrete log line with one parent. -/
theorem C6_commit_source_filters_witness :
    extract_task_id "ABC-1 fix".data = some "ABC-1".data ∧
    ("ABC-1".data : List Char) ≠ [] ∧
    ([("ABC-1".data : List Char)].contains "ABC-1".data) = true ∧
    ∃ line ∈ splitAll '\n' "aaaa|ABC-1 fix|bob|2020|p1|123".data, ∃ h0 a d p ts,
      splitLimit '|' 5 line = [h0, "ABC-1 fix".data, a, d, p, ts] ∧
      (pyWords p).length ≤ 1 :=
  C6_commit_source_filters "aaaa|ABC-1 fix|bob|2020|p1|123".data ["ABC-1".data]
    ⟨"aaaa".data, "ABC-1 fix".data, "bob".data, "2020".data, 123, "ABC-1".data⟩
    (by decide)

/-- The shape of one raw line of `git log --format="%H|%s|%an|%ad|%P|%at"`
output, assembled from its six fields. -/
def formatLogLine (h0 subj a d p ts : List Char) : List Char :=
  h0 ++ '|' :: subj ++ '|' :: a ++ '|' :: d ++ '|' :: p ++ '|' :: ts

/-- Taking while not-`sep` over a `sep`-free prefix keeps it whole. -/
theorem takeWhile_ne_append (sep : Char) (post : List Char) :
    ∀ pre : List Char, sep ∉ pre →
      (pre ++ sep :: post).takeWhile (· ≠ sep) = pre := by
  intro pre
  induction pre with
  | nil => intro _; simp [List.takeWhile]
  | cons c cs ih =>
    intro hpre
    have hc : c ≠ sep := by intro h; exact hpre (h ▸ List.mem_cons_self c cs)
    have hcs : sep ∉ cs := fun h => hpre (List.mem_cons_of_mem c h)
    simp only [List.cons_append, List.takeWhile_cons]
    rw [if_pos (by simpa using hc), ih hcs]

/-- Dropping while not-`sep` over a `sep`-free prefix reaches `sep`. -/
theorem dropWhile_ne_append (sep : Char) (post : List Char) :
    ∀ pre : List Char, sep ∉ pre →
      (pre ++ sep :: post).dropWhile (· ≠ sep) = sep :: post := by
  intro pre
  induction pre with
  | nil => intro _; simp [List.dropWhile]
  | cons c cs ih =>
    intro hpre
    have hc : c ≠ sep := by intro h; exact hpre (h ▸ List.mem_cons_self c cs)
    have hcs : sep ∉ cs := fun h => hpre (List.mem_cons_of_mem c h)
    simp only [List.cons_append, List.dropWhile_cons]
    rw [if_pos (by simpa using hc), ih hcs]

/-- Splitting a string that starts with a separator-free prefix peels
exactly that prefix. -/
theorem splitLimit_cons_of_not_mem (sep : Char) (pre post : List Char) (n : Nat)
    (hpre : sep ∉ pre) :
    splitLimit sep (n + 1) (pre ++ sep :: post) = pre :: splitLimit sep n post := by
  rw [splitLimit, if_pos, takeWhile_ne_append sep post pre hpre,
    dropWhile_ne_append sep post pre hpre]
  · rfl
  · rw [List.elem_iff]
    exact List.mem_append_right pre (List.mem_cons_self sep post)

/-- Any string splits as separator-free prefix, separator, remainder. -/
theorem pipe_decomp (sep : Char) :
    ∀ cs : List Char, sep ∈ cs →
      cs = cs.takeWhile (· ≠ sep) ++ sep :: (cs.dropWhile (· ≠ sep)).tail ∧
      sep ∉ cs.takeWhile (· ≠ sep) := by
  intro cs
  induction cs with
  | nil => intro h; cases h
  | cons c cs' ih =>
    intro h
    by_cases hc : c = sep
    · subst hc
      simp [List.takeWhile_cons, List.dropWhile_cons]
    · have h' : sep ∈ cs' := by
        rcases List.mem_cons.mp h with h1 | h1
        · exact absurd h1.symm hc
        · exact h1
      obtain ⟨ih1, ih2⟩ := ih h'
      constructor
      · simp only [List.takeWhile_cons, List.dropWhile_cons]
        rw [if_pos (by simpa using hc), if_pos (by simpa using hc), List.cons_append]
        exact congrArg (c :: ·) ih1
      · simp only [List.takeWhile_cons]
        rw [if_pos (by simpa using hc)]
        intro hm
        rcases List.mem_cons.mp hm with h1 | h1
        · exact hc h1.symm
        · exact ih2 h1

/-- When a string holds more separators than the split limit, the split
yields the maximal number of parts and the last part still holds a
separator. -/
theorem splitLimit_overflow (sep : Char) :
    ∀ (n : Nat) (cs : List Char), n < cs.count sep →
      (splitLimit sep n cs).length = n + 1 ∧
      sep ∈ (splitLimit sep n cs).getD n [] := by
  intro n
  induction n with
  | zero =>
    intro cs hn
    refine ⟨rfl, ?_⟩
    rw [splitLimit]
    simpa using List.count_pos_iff_mem.mp hn
  | succ n ih =>
    intro cs hn
    have hmem : sep ∈ cs := List.count_pos_iff_mem.mp (by omega)
    obtain ⟨hdec, hnot⟩ := pipe_decomp sep cs hmem
    have hcount : cs.count sep =
        (cs.takeWhile (· ≠ sep)).count sep + 1 + ((cs.dropWhile (· ≠ sep)).tail).count sep := by
      conv_lhs => rw [hdec]
      rw [List.count_append, List.count_cons]
      simp
      omega
    have hpre0 : (cs.takeWhile (· ≠ sep)).count sep = 0 := List.count_eq_zero.mpr hnot
    have htail : n < ((cs.dropWhile (· ≠ sep)).tail).count sep := by omega
    have hsplit : splitLimit sep (n + 1) cs =
        cs.takeWhile (· ≠ sep) :: splitLimit sep n ((cs.dropWhile (· ≠ sep)).tail) := by
      conv_lhs => rw [hdec]
      rw [splitLimit_cons_of_not_mem sep _ _ n hnot]
    obtain ⟨ihlen, ihmem⟩ := ih _ htail
    rw [hsplit]
    refine ⟨by simpa using ihlen, ?_⟩
    simpa using ihmem

/-- Accepted `int(...)` body tails contain only digits and underscores. -/
theorem digitsRest_mem : ∀ (cs : List Char) (b : Bool), digitsRest b cs = true →
    ∀ c ∈ cs, c.isDigit = true ∨ c = '_' := by
  intro cs
  induction cs with
  | nil => intro _ _ c hc; cases hc
  | cons c0 cs' ih =>
    intro b h c hc
    rw [digitsRest] at h
    split at h
    · rename_i h0
      rw [Bool.and_eq_true] at h
      rcases List.mem_cons.mp hc with rfl | hc'
      · exact Or.inr h0
      · exact ih true h.2 c hc'
    · rw [Bool.and_eq_true] at h
      rcases List.mem_cons.mp hc with rfl | hc'
      · exact Or.inl h.1
      · exact ih false h.2 c hc'

/-- The separator is neither a digit nor an underscore, so an accepted
`int(...)` body cannot contain it. -/
theorem digitsOK_pipe (cs : List Char) (h : '|' ∈ cs) : digitsOK cs = false := by
  cases cs with
  | nil => rfl
  | cons c0 cs' =>
    rw [digitsOK]
    rcases List.mem_cons.mp h with rfl | hc'
    · simp
    · cases hrest : digitsRest false cs'
      · simp
      · rcases digitsRest_mem cs' false hrest '|' hc' with hd | hu
        · simp at hd
        · simp at hu

/-- Dropping a leading run of characters that fail to be `a` cannot drop
an occurrence of `a` itself. -/
theorem mem_dropWhile_of_neg {α} (p : α → Bool) (a : α) (hp : p a = false) :
    ∀ l : List α, a ∈ l → a ∈ l.dropWhile p := by
  intro l
  induction l with
  | nil => intro h; cases h
  | cons c cs ih =>
    intro h
    rw [List.dropWhile_cons]
    split
    · rename_i hc
      rcases List.mem_cons.mp h with rfl | h'
      · rw [hp] at hc; cases hc
      · exact ih h'
    · exact h

/-- **C9 helper.**  Python `int(...)` rejects any string containing the
field separator: stripping removes only whitespace and the sign, and the
body grammar allows only digits and underscores. -/
theorem pyInt_pipe_none (cs : List Char) (h : '|' ∈ cs) : pyInt cs = none := by
  have hsp : isPySpace '|' = false := by decide
  have h1 : '|' ∈ ((cs.dropWhile isPySpace).reverse.dropWhile isPySpace).reverse := by
    rw [List.mem_reverse]
    apply mem_dropWhile_of_neg isPySpace '|' hsp
    rw [List.mem_reverse]
    exact mem_dropWhile_of_neg isPySpace '|' hsp cs h
  rw [pyInt]
  generalize hst : ((cs.dropWhile isPySpace).reverse.dropWhile isPySpace).reverse = st at h1
  rw [pyIntCore.eq_def]
  split
  · rename_i rest
    have h2 : '|' ∈ rest := by
      rcases List.mem_cons.mp h1 with h3 | h3
      · exact absurd h3 (by decide)
      · exact h3
    rw [digitsOK_pipe rest h2]
    rfl
  · rename_i rest
    have h2 : '|' ∈ rest := by
      rcases List.mem_cons.mp h1 with h3 | h3
      · exact absurd h3 (by decide)
      · exact h3
    rw [digitsOK_pipe rest h2]
    rfl
  · rw [digitsOK_pipe st h1]
    rfl

/-- A list of length six is literally a six-element list. -/
theorem list_len6 {α} (l : List α) (h : l.length = 6) :
    ∃ a b c d e f, l = [a, b, c, d, e, f] := by
  rcases l with _ | ⟨a, _ | ⟨b, _ | ⟨c, _ | ⟨d, _ | ⟨e, _ | ⟨f, rest⟩⟩⟩⟩⟩⟩ <;>
    simp_all

/-- **C9.**  A raw log line whose subject field contains the `|` field
separator (the other five fields being separator-free) splits into six
parts whose last part still contains a `|`, so the timestamp conversion
`int(...)` fails and the line is dropped: it can never contribute a
record to Commit Source output. -/
theorem C9_pipe_subject_dropped (tasks : List (List Char))
    (h0 subj a d p ts : List Char)
    (hsubj : '|' ∈ subj) (hh : '|' ∉ h0) (ha : '|' ∉ a) (hd : '|' ∉ d)
    (hp : '|' ∉ p) (hts : '|' ∉ ts) :
    (splitLimit '|' 5 (formatLogLine h0 subj a d p ts)).length = 6 ∧
    '|' ∈ (splitLimit '|' 5 (formatLogLine h0 subj a d p ts)).getD 5 [] ∧
    pyInt ((splitLimit '|' 5 (formatLogLine h0 subj a d p ts)).getD 5 []) = none ∧
    parseLine tasks (formatLogLine h0 subj a d p ts) = none := by
  have hcount : 5 < (formatLogLine h0 subj a d p ts).count '|' := by
    unfold formatLogLine
    simp only [List.count_append, List.count_cons]
    have e0 : h0.count '|' = 0 := List.count_eq_zero.mpr hh
    have e1 : a.count '|' = 0 := List.count_eq_zero.mpr ha
    have e2 : d.count '|' = 0 := List.count_eq_zero.mpr hd
    have e3 : p.count '|' = 0 := List.count_eq_zero.mpr hp
    have e4 : ts.count '|' = 0 := List.count_eq_zero.mpr hts
    simpa [e0, e1, e2, e3, e4] using hsubj
  obtain ⟨hlen, hlast⟩ := splitLimit_overflow '|' 5 _ hcount
  have hpy : pyInt ((splitLimit '|' 5 (formatLogLine h0 subj a d p ts)).getD 5 []) = none :=
    pyInt_pipe_none _ hlast
  refine ⟨hlen, hlast, hpy, ?_⟩
  obtain ⟨p0, p1, p2, p3, p4, p5, hparts⟩ := list_len6 _ hlen
  have hp5 : p5 = (splitLimit '|' 5 (formatLogLine h0 subj a d p ts)).getD 5 [] := by
    rw [hparts]
    rfl
  have hne : ¬ formatLogLine h0 subj a d p ts = [] := by
    intro hemp
    rw [hemp] at hcount
    simp at hcount
  unfold parseLine
  rw [if_neg hne, hparts]
  dsimp only
  cases hext : extract_task_id p1 with
  | none => rfl
  | some tid =>
    dsimp only
    split
    · rfl
    · split
      · rfl
      · rw [← hp5] at hpy
        rw [hpy]

/-- Witness for C9 at a concrete line whose subject smuggles a pipe. -/
theorem C9_pipe_subject_dropped_witness :
    (splitLimit '|' 5 (formatLogLine "aaaa".data "AB-1 x|y".data "bob".data
        "2020".data "p1".data "123".data)).length = 6 ∧
    '|' ∈ (splitLimit '|' 5 (formatLogLine "aaaa".data "AB-1 x|y".data "bob".data
        "2020".data "p1".data "123".data)).getD 5 [] ∧
    pyInt ((splitLimit '|' 5 (formatLogLine "aaaa".data "AB-1 x|y".data "bob".data
        "2020".data "p1".data "123".data)).getD 5 []) = none ∧
    parseLine ["AB-1".data] (formatLogLine "aaaa".data "AB-1 x|y".data "bob".data
        "2020".data "p1".data "123".data) = none :=
  C9_pipe_subject_dropped ["AB-1".data] "aaaa".data "AB-1 x|y".data "bob".data
    "2020".data "p1".data "123".data (by decide) (by decide) (by decide) (by decide)
    (by decide) (by decide)

/-- **C6, counterexample.**  A raw line with an empty parents field (a
root commit under `--no-merges`) passes every filter, so a record with
zero parents — not "exactly one" — appears in Commit Source output. -/
theorem C6_counterexample :
    parse_commits "aaaa|ABC-1 fix|bob|2020||123".data ["ABC-1".data] =
      [⟨"aaaa".data, "ABC-1 fix".data, "bob".data, "2020".data, 123, "ABC-1".data⟩] ∧
    (pyWords ((splitLimit '|' 5 "aaaa|ABC-1 fix|bob|2020||123".data).getD 4 [])).length
      = 0 := by
  refine ⟨by decide, by decide⟩


/-! Frame lemmas: nothing in the conflict-recovery and apply machinery
touches the current branch or performs a checkout. -/

theorem continue_or_skip_frame (env : Env) (s : S) :
    (continue_or_skip env s).2.branch = s.branch ∧
    (continue_or_skip env s).2.checkouts = s.checkouts := by
  cases hl : s.stdin with
  | nil =>
    simp only [continue_or_skip, continueAttempt, readLine, hl]
    split <;> exact ⟨rfl, rfl⟩
  | cons l rest =>
    simp only [continue_or_skip, continueAttempt, readLine, hl]
    split
    · exact ⟨rfl, rfl⟩
    · split <;> exact ⟨rfl, rfl⟩

theorem handleConflictGo_frame (env : Env) :
    ∀ (stdin : List String) (s : S),
      (handleConflictGo env stdin s).2.branch = s.branch ∧
      (handleConflictGo env stdin s).2.checkouts = s.checkouts := by
  intro stdin
  induction stdin with
  | nil => intro s; exact ⟨rfl, rfl⟩
  | cons choice rest ih =>
    intro s
    rw [handleConflictGo]
    split
    · exact ih _
    · split
      · exact ih _
      · split
        · exact continue_or_skip_frame env _
        · split
          · exact continue_or_skip_frame env _
          · split
            · exact continue_or_skip_frame env _
            · split
              · exact continue_or_skip_frame env _
              · split
                · exact ⟨rfl, rfl⟩
                · split
                  · exact ⟨rfl, rfl⟩
                  · exact ih _

theorem conflictLoopFuel_frame (env : Env) :
    ∀ (fuel : Nat) (s : S),
      (conflictLoopFuel env fuel s).2.branch = s.branch ∧
      (conflictLoopFuel env fuel s).2.checkouts = s.checkouts := by
  intro fuel
  induction fuel with
  | zero => intro s; exact ⟨rfl, rfl⟩
  | succ fuel ih =>
    intro s
    rw [conflictLoopFuel]
    rcases hh : handle_conflict env s with ⟨e | ⟨action, success⟩, s₁⟩
    · have hf := handleConflictGo_frame env s.stdin s
      rw [handle_conflict] at hh
      rw [hh] at hf
      exact hf
    · have hf := handleConflictGo_frame env s.stdin s
      rw [handle_conflict] at hh
      rw [hh] at hf
      simp only
      split
      · exact hf
      · split
        · exact hf
        · split
          · exact hf
          · obtain ⟨hf1, hf2⟩ := ih s₁
            rw [hf1, hf2]
            exact hf

theorem conflictLoop_frame (env : Env) (s : S) :
    (conflictLoop env s).2.branch = s.branch ∧
    (conflictLoop env s).2.checkouts = s.checkouts :=
  conflictLoopFuel_frame env _ s

theorem applyLoop_frame (env : Env) (n : Nat) :
    ∀ (cs : List GitCommit) (i succ skip : Nat) (s : S),
      (applyLoop env n cs i succ skip s).2.branch = s.branch ∧
      (applyLoop env n cs i succ skip s).2.checkouts = s.checkouts := by
  intro cs
  induction cs with
  | nil => intro i succ skip s; exact ⟨rfl, rfl⟩
  | cons c rest ih =>
    intro i succ skip s
    rw [applyLoop]
    cases hb : env.pickOk s.nPick with
    | true =>
      simp only [cherryPickAttempt, hb]
      exact ih _ _ _ _
    | false =>
      simp only [cherryPickAttempt, hb]
      rcases hcl : conflictLoop env { s with nPick := s.nPick + 1 } with ⟨r, s₂⟩
      obtain ⟨hc1, hc2⟩ := conflictLoop_frame env { s with nPick := s.nPick + 1 }
      rw [hcl] at hc1 hc2
      cases r with
      | error e => exact ⟨hc1, hc2⟩
      | ok lr =>
        cases lr with
        | aborted => exact ⟨hc1, hc2⟩
        | skippedOne =>
          obtain ⟨h1, h2⟩ := ih (i + 1) succ (skip + 1) s₂
          dsimp only
          rw [h1, h2]
          exact ⟨hc1, hc2⟩
        | applied =>
          obtain ⟨h1, h2⟩ := ih (i + 1) (succ + 1) skip s₂
          dsimp only
          rw [h1, h2]
          exact ⟨hc1, hc2⟩

theorem apply_commits_frame (env : Env) (commits : List GitCommit) (s : S) :
    (apply_commits env commits s).2.branch = s.branch ∧
    (apply_commits env commits s).2.checkouts = s.checkouts :=
  applyLoop_frame env commits.length commits 1 0 0 s


/-- Reduction of `run` to its apply phase: with a verified source, a
nonempty commit list, no dry run, and an affirmative confirmation, `run`
checks out the target when needed, applies, and executes the `finally`
restoration. -/
theorem run_apply_phase (env : Env) (target : String) (tasks : List (List Char))
    (s : S) (l : String) (rest : List String)
    (hrev : env.revParse ≠ "")
    (hne : (get_commits_by_tasks env tasks).isEmpty = false)
    (hst : s.stdin = l :: rest)
    (hl : pyLower l = "y") :
    CherryPicker.run env target tasks false s =
      (match (apply_commits env (get_commits_by_tasks env tasks)
          (if target ≠ s.branch then checkout target { s with stdin := rest }
           else { s with stdin := rest })) with
       | (r, s₃) =>
         match r with
         | .error e =>
           (.error e,
            if s.branch ≠ "" ∧ s.branch ≠ s₃.branch then checkout s.branch s₃ else s₃)
         | .ok (sum, printed) =>
           (.ok (.finished sum printed),
            if s.branch ≠ "" ∧ s.branch ≠ s₃.branch then checkout s.branch s₃ else s₃)) := by
  unfold CherryPicker.run
  rw [if_neg hrev]
  simp only [hne, Bool.false_eq_true, if_false, readLine, hst, hl]
  rcases apply_commits env (get_commits_by_tasks env tasks)
      (if target ≠ s.branch then checkout target { s with stdin := rest }
       else { s with stdin := rest }) with ⟨r, s₃⟩
  rfl

/-- **C2.**  For every invocation of `run` that reaches the apply phase
with a nonempty saved branch, the branch after `run` returns equals the
branch that was active before, on every exit path — normal completion,
operator abort, or an exception escaping the apply loop. -/
theorem C2_branch_restored (env : Env) (target : String) (tasks : List (List Char))
    (s : S) (l : String) (rest : List String)
    (hrev : env.revParse ≠ "")
    (hne : (get_commits_by_tasks env tasks).isEmpty = false)
    (hst : s.stdin = l :: rest)
    (hl : pyLower l = "y")
    (hbr : s.branch ≠ "") :
    (CherryPicker.run env target tasks false s).2.branch = s.branch := by
  rw [run_apply_phase env target tasks s l rest hrev hne hst hl]
  rcases hap : apply_commits env (get_commits_by_tasks env tasks)
      (if target ≠ s.branch then checkout target { s with stdin := rest }
       else { s with stdin := rest }) with ⟨r, s₃⟩
  have hrestore :
      (if s.branch ≠ "" ∧ s.branch ≠ s₃.branch then checkout s.branch s₃ else s₃).branch
        = s.branch := by
    split
    · rfl
    · rename_i hcond
      rw [not_and_or] at hcond
      rcases hcond with h1 | h1
      · exact absurd hbr h1
      · rw [not_not] at h1
        exact h1.symm
  cases r with
  | error e => exact hrestore
  | ok pr => cases pr with | mk sum printed => exact hrestore

/-- Witness for C2: a run that aborts on a conflict still ends on the
original branch. -/
theorem C2_branch_restored_witness :
    (CherryPicker.run
      ⟨fun _ => false, fun _ => false, "x", "h1|ABC-1 x|me|d|p|5".data⟩
      "tgt" ["ABC-1".data] false ⟨"main", [], ["y", "a"], 0, 0⟩).2.branch = "main" :=
  C2_branch_restored ⟨fun _ => false, fun _ => false, "x", "h1|ABC-1 x|me|d|p|5".data⟩
    "tgt" ["ABC-1".data] ⟨"main", [], ["y", "a"], 0, 0⟩ "y" ["a"]
    (by decide) (by decide) rfl (by decide) (by decide)

/-- **C7, amended.**  When the discovered ordered change list is empty,
`run` returns early reporting that no commits were found: the state is
untouched (zero checkouts, zero apply attempts) and no summary of any
kind is emitted. -/
theorem C7_empty_list_noop (env : Env) (target : String) (tasks : List (List Char))
    (dryRun : Bool) (s : S)
    (hrev : env.revParse ≠ "")
    (hempty : get_commits_by_tasks env tasks = []) :
    CherryPicker.run env target tasks dryRun s = (.ok .noCommits, s) := by
  unfold CherryPicker.run
  rw [if_neg hrev]
  simp [hempty]

/-- Witness for C7 at a concrete environment with no matching commits. -/
theorem C7_empty_list_noop_witness :
    CherryPicker.run ⟨fun _ => true, fun _ => true, "x", "nothing here".data⟩
        "tgt" ["AB-1".data] false ⟨"main", [], ["y"], 0, 0⟩ =
      (.ok .noCommits, ⟨"main", [], ["y"], 0, 0⟩) :=
  C7_empty_list_noop ⟨fun _ => true, fun _ => true, "x", "nothing here".data⟩
    "tgt" ["AB-1".data] false ⟨"main", [], ["y"], 0, 0⟩ (by decide) (by decide)

/-- **C7, counterexample.**  On an empty discovered list `run` exits with
the no-commits report; it does not return or print an all-zero summary
(`RunExit.finished` never occurs on this path). -/
theorem C7_counterexample :
    (CherryPicker.run ⟨fun _ => true, fun _ => true, "x", "nothing here".data⟩
        "tgt" ["AB-1".data] false ⟨"main", [], ["y"], 0, 0⟩).1 = .ok .noCommits ∧
    (Except.ok RunExit.noCommits : Except Exn RunExit) ≠
      .ok (.finished ⟨0, 0, 0⟩ true) := by
  refine ⟨by rfl, ?_⟩
  intro h
  injection h with h2
  cases h2

/-- **C3.**  When the operator aborts, `_apply_commits` returns from the
method before the final summary `print`: the computed `failed` count is
discarded and no summary line is emitted (the `printed` flag is `false`).
A clean completion of the same run does reach the summary print. -/
theorem C3_abort_skips_summary :
    (CherryPicker.run ⟨fun _ => false, fun _ => false, "x", "h1|ABC-1 x|me|d|p|5".data⟩
        "tgt" ["ABC-1".data] false ⟨"main", [], ["y", "a"], 0, 0⟩).1 =
      .ok (.finished ⟨0, 0, 1⟩ false) ∧
    (CherryPicker.run ⟨fun _ => true, fun _ => false, "x", "h1|ABC-1 x|me|d|p|5".data⟩
        "tgt" ["ABC-1".data] false ⟨"main", [], ["y"], 0, 0⟩).1 =
      .ok (.finished ⟨1, 0, 0⟩ true) := by
  refine ⟨by rfl, by rfl⟩


/-- **C10.**  If the current-branch query returned an empty string before
the apply phase (detached HEAD), the cleanup performs no restoration
checkout: the only checkout of the whole run is the one onto the target,
and the run ends still on the target branch. -/
theorem C10_empty_original_no_restore (env : Env) (target : String)
    (tasks : List (List Char)) (s : S) (l : String) (rest : List String)
    (hrev : env.revParse ≠ "")
    (hne : (get_commits_by_tasks env tasks).isEmpty = false)
    (hst : s.stdin = l :: rest)
    (hl : pyLower l = "y")
    (hbr : s.branch = "")
    (htgt : target ≠ "") :
    (CherryPicker.run env target tasks false s).2.checkouts = s.checkouts ++ [target] ∧
    (CherryPicker.run env target tasks false s).2.branch = target := by
  rw [run_apply_phase env target tasks s l rest hrev hne hst hl]
  have hcond : target ≠ s.branch := by rw [hbr]; exact htgt
  rw [if_pos hcond]
  rcases hap : apply_commits env (get_commits_by_tasks env tasks)
      (checkout target { s with stdin := rest }) with ⟨r, s₃⟩
  obtain ⟨hf1, hf2⟩ := apply_commits_frame env (get_commits_by_tasks env tasks)
      (checkout target { s with stdin := rest })
  rw [hap] at hf1 hf2
  have hb3 : s₃.branch = target := hf1
  have hc3 : s₃.checkouts = s.checkouts ++ [target] := hf2
  have hnores :
      (if s.branch ≠ "" ∧ s.branch ≠ s₃.branch then checkout s.branch s₃ else s₃) = s₃ := by
    rw [if_neg]
    intro hcond2
    exact hcond2.1 hbr
  cases r with
  | error e =>
    dsimp only
    rw [hnores]
    exact ⟨hc3, hb3⟩
  | ok pr =>
    cases pr with
    | mk sum printed =>
      dsimp only
      rw [hnores]
      exact ⟨hc3, hb3⟩

/-- Witness for C10: a detached-HEAD run checks out only the target and
stays there. -/
theorem C10_empty_original_no_restore_witness :
    (CherryPicker.run ⟨fun _ => false, fun _ => false, "x", "h1|ABC-1 x|me|d|p|5".data⟩
        "tgt" ["ABC-1".data] false ⟨"", [], ["y", "a"], 0, 0⟩).2.checkouts = ["tgt"] ∧
    (CherryPicker.run ⟨fun _ => false, fun _ => false, "x", "h1|ABC-1 x|me|d|p|5".data⟩
        "tgt" ["ABC-1".data] false ⟨"", [], ["y", "a"], 0, 0⟩).2.branch = "tgt" :=
  C10_empty_original_no_restore
    ⟨fun _ => false, fun _ => false, "x", "h1|ABC-1 x|me|d|p|5".data⟩
    "tgt" ["ABC-1".data] ⟨"", [], ["y", "a"], 0, 0⟩ "y" ["a"]
    (by decide) (by decide) rfl (by decide) rfl (by decide)


/-- Choosing `a` at the menu aborts the session at once. -/
theorem conflictLoop_abort (env : Env) (s : S) (rest : List String)
    (hst : s.stdin = "a" :: rest) :
    conflictLoop env s = (.ok .aborted, { s with stdin := rest }) := by
  have hhc : handle_conflict env s = (.ok ("abort", false), { s with stdin := rest }) := by
    have ha : pyLower "a" = "a" := rfl
    rw [handle_conflict, hst, handleConflictGo, ha]
    simp
  unfold conflictLoop
  rw [hst]
  rw [conflictLoopFuel]
  rw [hhc]
  simp

/-- The apply loop, when the first `m` attempts succeed, the next one
conflicts, and the operator immediately aborts: the counters at the
early return are `succ + m` applied, `skip` skipped, and
`n - (i + m) + 1` remaining; exactly `m + 1` attempts were made and the
summary print is not reached. -/
theorem applyLoop_abort (env : Env) (n : Nat) :
    ∀ (m : Nat) (cs : List GitCommit) (i succ skip : Nat) (s : S) (rest : List String),
      m < cs.length →
      (∀ k, k < m → env.pickOk (s.nPick + k) = true) →
      env.pickOk (s.nPick + m) = false →
      s.stdin = "a" :: rest →
      applyLoop env n cs i succ skip s =
        (.ok ({ successful := succ + m, skipped := skip, failed := n - (i + m) + 1 }, false),
         { s with nPick := s.nPick + m + 1, stdin := rest }) := by
  intro m
  induction m with
  | zero =>
    intro cs i succ skip s rest hm hpick hfail hst
    cases cs with
    | nil => simp at hm
    | cons c cs' =>
      rw [applyLoop]
      have hfail0 : env.pickOk s.nPick = false := by simpa using hfail
      simp only [cherryPickAttempt, hfail0]
      rw [conflictLoop_abort env _ rest (by simpa using hst)]
      simp
  | succ m ih =>
    intro cs i succ skip s rest hm hpick hfail hst
    cases cs with
    | nil => simp at hm
    | cons c cs' =>
      rw [applyLoop]
      have hok : env.pickOk s.nPick = true := by
        have := hpick 0 (by omega)
        simpa using this
      simp only [cherryPickAttempt, hok]
      rw [ih cs' (i + 1) (succ + 1) skip { s with nPick := s.nPick + 1 } rest
        (by simpa using Nat.lt_of_succ_lt_succ (by simpa using hm))
        (fun k hk => by
          have := hpick (k + 1) (by omega)
          simpa [Nat.add_assoc, Nat.add_comm 1 k] using this)
        (by simpa [Nat.add_assoc, Nat.add_comm 1 m] using hfail)
        hst]
      have e1 : succ + 1 + m = succ + (m + 1) := by omega
      have e2 : i + 1 + m = i + (m + 1) := by omega
      have e3 : s.nPick + 1 + m + 1 = s.nPick + (m + 1) + 1 := by omega
      rw [e1, e2, e3]

/-- **C5.**  If the operator aborts while blocked at 1-indexed position
`i = m + 1` of the `n` ordered changes, the engine stops at once: the
remaining-count local equals `n - (m + 1) + 1` (the blocked change
included), the applied count is `m`, nothing was skipped, and exactly
`m + 1` cherry-pick attempts were issued, so no change at a later
position is ever attempted. -/
theorem C5_abort_position (env : Env) (target : String) (tasks : List (List Char))
    (s : S) (m : Nat) (rest : List String)
    (hrev : env.revParse ≠ "")
    (hm : m < (get_commits_by_tasks env tasks).length)
    (hpick : ∀ k, k < m → env.pickOk (s.nPick + k) = true)
    (hfail : env.pickOk (s.nPick + m) = false)
    (hst : s.stdin = "y" :: "a" :: rest) :
    (CherryPicker.run env target tasks false s).1 =
      .ok (.finished
        ⟨m, 0, (get_commits_by_tasks env tasks).length - (m + 1) + 1⟩ false) ∧
    (CherryPicker.run env target tasks false s).2.nPick = s.nPick + m + 1 := by
  have hne : (get_commits_by_tasks env tasks).isEmpty = false := by
    cases hcs : get_commits_by_tasks env tasks with
    | nil => rw [hcs] at hm; simp at hm
    | cons c cs' => simp [hcs]
  rw [run_apply_phase env target tasks s "y" ("a" :: rest) hrev hne hst rfl]
  have hs2 :
      (if target ≠ s.branch then checkout target { s with stdin := "a" :: rest }
       else { s with stdin := "a" :: rest }).nPick = s.nPick ∧
      (if target ≠ s.branch then checkout target { s with stdin := "a" :: rest }
       else { s with stdin := "a" :: rest }).stdin = "a" :: rest := by
    split <;> exact ⟨rfl, rfl⟩
  obtain ⟨hs2p, hs2s⟩ := hs2
  have hap := applyLoop_abort env (get_commits_by_tasks env tasks).length m
    (get_commits_by_tasks env tasks) 1 0 0
    (if target ≠ s.branch then checkout target { s with stdin := "a" :: rest }
     else { s with stdin := "a" :: rest }) rest hm
    (fun k hk => by rw [hs2p]; exact hpick k hk)
    (by rw [hs2p]; exact hfail)
    hs2s
  unfold apply_commits
  rw [hap]
  dsimp only
  constructor
  · have e1 : (0 : Nat) + m = m := by omega
    have e2 : (1 : Nat) + m = m + 1 := by omega
    rw [e1, e2]
  · have hckp : ∀ (b : String) (t : S), (checkout b t).nPick = t.nPick := fun _ _ => rfl
    split <;> split <;> simp [checkout]

/-- Witness for C5: two discovered commits, the first applies cleanly,
the second conflicts and the operator aborts — one applied, one counted
as remaining, exactly two attempts. -/
theorem C5_abort_position_witness :
    (CherryPicker.run
      ⟨fun k => decide (k = 0), fun _ => false, "x",
        "h1|ABC-1 x|me|d|p|5\nh2|ABC-2 y|me|d|p|9".data⟩
      "tgt" ["ABC-1".data, "ABC-2".data] false ⟨"main", [], ["y", "a"], 0, 0⟩).1 =
      .ok (.finished ⟨1, 0, 1⟩ false) ∧
    (CherryPicker.run
      ⟨fun k => decide (k = 0), fun _ => false, "x",
        "h1|ABC-1 x|me|d|p|5\nh2|ABC-2 y|me|d|p|9".data⟩
      "tgt" ["ABC-1".data, "ABC-2".data] false ⟨"main", [], ["y", "a"], 0, 0⟩).2.nPick
      = 2 := by
  have h := C5_abort_position
    ⟨fun k => decide (k = 0), fun _ => false, "x",
      "h1|ABC-1 x|me|d|p|5\nh2|ABC-2 y|me|d|p|9".data⟩
    "tgt" ["ABC-1".data, "ABC-2".data] ⟨"main", [], ["y", "a"], 0, 0⟩ 1 []
    (by decide)
    (by decide)
    (fun k hk => by
      have : k = 0 := by omega
      subst this
      rfl)
    (by decide)
    rfl
  exact ⟨by rw [h.1]; rfl, by rw [h.2]⟩


/-- **C8.**  When the continue operation fails inside a recovery session:
(1) `_continue_or_skip` can never resolve to the `abort` action, so the
session cannot auto-escalate; (2) if the operator declines the skip
offer, the result is `("continue", False)` with only the answer line
consumed; and (3) on that result the apply loop re-enters the recovery
menu with the remaining input — same commit, no crash, no advance. -/
theorem C8_continue_failure_no_escalation (env : Env) (s : S) :
    (∀ r s', continue_or_skip env s = (.ok r, s') → r.1 ≠ "abort") ∧
    (∀ line rest, s.stdin = line :: rest → env.contOk s.nCont = false →
      pyLower line ≠ "y" →
      continue_or_skip env s =
        (.ok ("continue", false), { s with nCont := s.nCont + 1, stdin := rest })) ∧
    (∀ s₁, handle_conflict env s = (.ok ("continue", false), s₁) →
      conflictLoop env s = conflictLoop env s₁) := by
  refine ⟨?_, ?_, ?_⟩
  · intro r s' hr
    unfold continue_or_skip continueAttempt readLine at hr
    dsimp only at hr
    split at hr
    · simp only [Prod.mk.injEq, Except.ok.injEq] at hr
      obtain ⟨hr1, hr2⟩ := hr
      subst hr1
      decide
    · split at hr
      · simp at hr
      · split at hr <;>
          (simp only [Prod.mk.injEq, Except.ok.injEq] at hr
           obtain ⟨hr1, hr2⟩ := hr
           subst hr1
           decide)
  · intro line rest hst hcont hdecline
    unfold continue_or_skip continueAttempt readLine
    simp only [hcont, hst]
    rw [if_neg (by simp), if_neg hdecline]
  · intro s₁ hhc
    have hlt := handle_conflict_stdin_lt env s ("continue", false) s₁ hhc
    conv_lhs => rw [conflictLoop, conflictLoopFuel, hhc]
    dsimp only
    rw [if_neg (by decide : ¬("continue" : String) = "abort"),
      if_neg (by decide : ¬("continue" : String) = "skip")]
    simp only [Bool.false_eq_true, if_false]
    exact conflictLoopFuel_irrel env s.stdin.length s₁ (by omega)

/-- Witness for C8 at a declining operator: the session returns
`("continue", False)` after consuming only the answer line. -/
theorem C8_continue_failure_no_escalation_witness :
    continue_or_skip ⟨fun _ => false, fun _ => false, "x", []⟩
        ⟨"main", [], ["n"], 0, 0⟩ =
      (.ok ("continue", false), ⟨"main", [], [], 0, 1⟩) :=
  (C8_continue_failure_no_escalation
      ⟨fun _ => false, fun _ => false, "x", []⟩
      ⟨"main", [], ["n"], 0, 0⟩).2.1 "n" [] rfl rfl (by decide)

end CherryPick
